import Mathlib

/-!
Shallow embedding of `aider/context_discovery.py` (class `ContextDiscoverer`):
the incremental index synchronisation logic (`refresh_index`), the cache
loading logic (`load_or_create_index`) and the retrieval entry point
(`query`).  External library state (the llama-index vector store) is modelled
by its bookkeeping that the Python code actually reads and writes: an
association list from document id (the absolute file path) to the inserted
document data.  The filesystem is modelled as a snapshot: a per-path stat
record plus a directory tree under the repository root used by `os.walk`.
-/

namespace Aider

/-- Result of the per-path filesystem observations the Python code makes:
`os.path.isfile`, `os.path.getmtime`, `os.path.getsize` (`none` models the
`OSError` branch), whether the first 1 KiB chunk contains a null byte, and
the result of `io.read_text` (`none` models a failed read, which Python
reports as a falsy `None`). -/
structure FileData where
  isFile : Bool := false
  mtime : Int := 0
  size : Option Nat := none
  hasNullByte : Bool := false
  content : Option String := none
deriving Repr, DecidableEq

/-- The data of a `Document` inserted by `refresh_index`: its text and the
metadata fields (`relative_path`, `mtime`) that the code later reads back.
`mtime?` is an `Option` because a document restored from a persisted cache
may lack the key, in which case the code falls back to `0`
(`metadata.get("mtime", 0)`). -/
structure IndexDoc where
  text : String := ""
  relativePath : String := ""
  mtime? : Option Int := none
deriving Repr, DecidableEq

/-- The index bookkeeping visible to `refresh_index`: `ref_doc_info` keyed by
doc id (the absolute path).  Insertion prepends, so that a lookup by
`List.find?` sees the most recently inserted document for an id, matching
python-dict overwrite semantics. -/
abbrev Index := List (String × IndexDoc)

/-- One file below the repository root, given by the path components of its
directory (relative to the root) and its base name.  The recursive
`os.walk` traversal is modelled by this flat listing of the files in the tree. -/
structure WalkEntry where
  dirComponents : List String
  fileName : String
deriving Repr, DecidableEq

/-- Snapshot of the filesystem during one `refresh_index` call: per-path stat
data, the flat listing of the files below the repository root (for the
walk), and the state of the `.aiderignore` file (`none`: does not exist;
`some none`: `read_text` raises, which the code swallows leaving the
pattern list empty; `some (some t)`: readable with content `t`). -/
structure Fs where
  stat : String → FileData
  entries : List WalkEntry
  ignoreText : Option (Option String)

/-- Path join `os.path.join(root, rel)` for a relative second component. -/
def joinPath (root rel : String) : String :=
  root ++ "/" ++ rel

/-- The root-relative path of a walk entry, as the successive
`os.path.join`/`os.path.relpath` steps of the walk produce it. -/
def entryRel (e : WalkEntry) : String :=
  String.intercalate "/" (e.dirComponents ++ [e.fileName])

/-- Python `str.startswith`, at the character-list level. -/
def pyStartsWith (s pfx : String) : Bool :=
  pfx.toList.isPrefixOf s.toList

/-- Python `str.endswith`, at the character-list level. -/
def pyEndsWith (s suffix : String) : Bool :=
  List.isSuffixOf suffix.toList s.toList

/-- The ASCII whitespace removed by Python `str.strip()`. -/
def isSpaceChar (c : Char) : Bool :=
  c == ' ' || c == '\t' || c == '\n' || c == '\r' || c == '\x0B' || c == '\x0C'

/-- Python `str.strip()`: drop whitespace from both ends. -/
def pyStrip (s : String) : String :=
  String.mk (((s.toList.dropWhile isSpaceChar).reverse.dropWhile isSpaceChar).reverse)

/-- Split a character list at every occurrence of a separator. -/
def splitChar (c : Char) : List Char → List (List Char)
  | [] => [[]]
  | x :: xs =>
    match splitChar c xs with
    | [] => [[x]]
    | r :: rs => if x == c then [] :: r :: rs else (x :: r) :: rs

/-- Python `str.splitlines()` for the common newline terminator. -/
def splitLines (s : String) : List String :=
  (splitChar '\n' s.toList).map String.mk

/-- The `(rel_fname, file)` pairs yielded by `os.walk(git_root)` combined
with the in-loop pruning `dirs[:] = [d for d in dirs if not
d.startswith(".")]`: exactly the files none of whose ancestor directories
below the root is hidden are reached, since pruning a hidden directory
skips its whole subtree. -/
def osWalkFiles (entries : List WalkEntry) : List (String × String) :=
  (entries.filter
      (fun e => !(e.dirComponents.any (fun d => pyStartsWith d ".")))).map
    (fun e => (entryRel e, e.fileName))

/-- Parse the `.aiderignore` content: keep the `strip()` of every line whose
stripped form is non-blank and whose raw form does not start with `#`
(faithful to the comprehension, which tests `line.startswith("#")` on the
unstripped line). -/
def parseIgnorePatterns (text : String) : List String :=
  ((splitLines text).filter
      (fun line => !(pyStrip line == "") && !(pyStartsWith line "#"))).map pyStrip

/-- The ignore patterns in force for the walk, from the modelled state of
the `.aiderignore` file. -/
def activePatterns (fs : Fs) : List String :=
  match fs.ignoreText with
  | some (some t) => parseIgnorePatterns t
  | some none => []
  | none => []

/-- Membership of a character in the chars of an fnmatch bracket class,
with `a-b` ranges; a trailing `-` is literal. -/
def classHas (c : Char) : List Char → Bool
  | a :: '-' :: b :: rest => (a ≤ c && c ≤ b) || classHas c rest
  | a :: rest => (a == c) || classHas c rest
  | [] => false

/-- Scan for the closing `]` of a bracket class, returning the class body
and the rest of the pattern. -/
def findClose (acc : List Char) : List Char → Option (List Char × List Char)
  | ']' :: rest => some (acc.reverse, rest)
  | c :: rest => findClose (c :: acc) rest
  | [] => none

/-- Parse what follows a `[` in an fnmatch pattern: an optional leading `!`
negates; a `]` immediately after (`[]` or `[!]`) is part of the class body.
Returns `(negated, body, rest)`, or `none` when the class is unterminated
(in which case fnmatch treats `[` as a literal). -/
def parseClass (s : List Char) : Option (Bool × List Char × List Char) :=
  match s with
  | '!' :: s1 =>
    (match s1 with
     | ']' :: s2 => (findClose [']'] s2).map (fun pr => (true, pr.1, pr.2))
     | _ => (findClose [] s1).map (fun pr => (true, pr.1, pr.2)))
  | ']' :: s2 => (findClose [']'] s2).map (fun pr => (false, pr.1, pr.2))
  | _ => (findClose [] s).map (fun pr => (false, pr.1, pr.2))

/-- Core of `fnmatch.fnmatch` on POSIX (where `normcase` is the identity):
`*` matches any run, `?` any single character, `[...]`/`[!...]` classes;
an unterminated `[` is literal. First argument is the fuel, then the
pattern, then the candidate name.  Every recursive step strictly decreases
the sum of the lengths of the pattern and the name, so the fuel supplied by
`fnmatch` (that sum plus one) can never run out; the fuel only makes the
recursion structural. -/
def fnmatchCore : Nat → List Char → List Char → Bool
  | 0, _, _ => false
  | _ + 1, [], [] => true
  | _ + 1, [], _ :: _ => false
  | n + 1, '*' :: p, s =>
    fnmatchCore n p s ||
      (match s with
       | [] => false
       | _ :: s1 => fnmatchCore n ('*' :: p) s1)
  | n + 1, '?' :: p, _ :: s => fnmatchCore n p s
  | _ + 1, '?' :: _, [] => false
  | n + 1, '[' :: p, s =>
    (match parseClass p with
     | some (neg, cls, p1) =>
       (match s with
        | c :: s1 =>
          (if neg then !(classHas c cls) else classHas c cls) && fnmatchCore n p1 s1
        | [] => false)
     | none =>
       (match s with
        | '[' :: s1 => fnmatchCore n p s1
        | _ => false))
  | n + 1, c :: p, d :: s => (c == d) && fnmatchCore n p s
  | _ + 1, _ :: _, [] => false

/-- `fnmatch.fnmatch(name, pat)`. -/
def fnmatch (name pat : String) : Bool :=
  fnmatchCore (pat.toList.length + name.toList.length + 1) pat.toList name.toList

/-- The binary and large-file extensions skipped by the full walk. -/
def binaryExts : List String :=
  [".DS_Store", ".woff2", ".ico", ".png", ".jpg", ".jpeg", ".gif",
   ".pdf", ".zip", ".tar", ".gz"]

/-- The walk entries (relative path, base name) that survive the in-walk
filters of `refresh_index`: not matching an ignore pattern and not ending
in a skipped extension. -/
def walkSurvivors (fs : Fs) : List (String × String) :=
  (osWalkFiles fs.entries).filter (fun rb =>
    !((activePatterns fs).any (fun pat => fnmatch rb.1 pat)) &&
      !(binaryExts.any (fun ext => pyEndsWith rb.2 ext)))

/-- The absolute file names appended to `files_to_index` by the full-walk
fallback: surviving walk entries whose `os.path.getsize` succeeds and is at
most 1 MiB. -/
def walkFiles (root : String) (fs : Fs) : List String :=
  (walkSurvivors fs).filterMap (fun rb =>
    match (fs.stat (joinPath root rb.1)).size with
    | none => none
    | some sz => if sz > 1024 * 1024 then none else some (joinPath root rb.1))

/-- The doc ids currently in the index, i.e. the keys of `ref_doc_info`. -/
def indexIds (index : Index) : List String :=
  (index.map Prod.fst).dedup

/-- The stored mtime for an indexed file:
`ref_doc_info[fname].metadata.get("mtime", 0)`, with `0` when the metadata
or the key is absent. -/
def storedMtime (index : Index) (f : String) : Int :=
  match index.find? (fun p => p.1 == f) with
  | some p => p.2.mtime?.getD 0
  | none => 0

/-- The three change sets computed at the top of `refresh_index`. -/
structure SyncPlan where
  newFiles : List String
  deletedFiles : List String
  modifiedFiles : List String
deriving Repr, DecidableEq

/-- Compute the sync plan exactly as `refresh_index` does:
`new = current − existing`, `deleted = existing − current`, and
`modified` the members of the intersection that are still regular files on
disk and whose current mtime exceeds the stored one. -/
def computePlan (index : Index) (fnames : List String) (fs : Fs) : SyncPlan :=
  let current := fnames.dedup
  let existingIds := indexIds index
  { newFiles := current.filter (fun f => decide (f ∉ existingIds))
    deletedFiles := existingIds.filter (fun f => decide (f ∉ current))
    modifiedFiles :=
      (current.filter (fun f => decide (f ∈ existingIds))).filter (fun f =>
        (fs.stat f).isFile && decide (storedMtime index f < (fs.stat f).mtime)) }

/-- `index.delete_ref_doc(fname, delete_from_docstore=True)`: drop every
entry carrying that doc id. -/
def deleteRefDoc (index : Index) (f : String) : Index :=
  index.filter (fun p => !(p.1 == f))

/-- The per-file relative path placed in document metadata:
`os.path.relpath(fname, git_root) if git_root else fname`, modelled for the
usual case of a path lying under the root. -/
def relativePathOf (gitRoot : Option String) (f : String) : String :=
  match gitRoot with
  | some root =>
    if pyStartsWith f (root ++ "/") then
      String.mk (f.toList.drop (root ++ "/").toList.length)
    else f
  | none => f

/-- The document built and inserted for a file: its read content, keyed by
the absolute path, with metadata relative path and current mtime. -/
def mkDoc (gitRoot : Option String) (fs : Fs) (f : String) : IndexDoc :=
  { text := ((fs.stat f).content).getD ""
    relativePath := relativePathOf gitRoot f
    mtime? := some ((fs.stat f).mtime) }

/-- One iteration of the insertion loop of `refresh_index`: skip paths that
are not regular files, whose first chunk contains a null byte, or whose
read content is falsy (`None` or empty); otherwise insert the document and
record the insertion. -/
def insertStep (gitRoot : Option String) (fs : Fs) (acc : Index × List String)
    (f : String) : Index × List String :=
  if !((fs.stat f).isFile) then acc
  else if (fs.stat f).hasNullByte then acc
  else
    match (fs.stat f).content with
    | none => acc
    | some c =>
      if c = "" then acc
      else ((f, mkDoc gitRoot fs f) :: acc.1, acc.2 ++ [f])

/-- The insertion loop over `files_to_index`, returning the updated index
and the list of files actually inserted (whose length is the `count` of the
Python code). -/
def insertDocs (gitRoot : Option String) (fs : Fs) (index : Index)
    (files : List String) : Index × List String :=
  files.foldl (insertStep gitRoot fs) (index, [])

/-- Whether the insertion loop will actually insert a given path. -/
def insertableB (fs : Fs) (f : String) : Bool :=
  (fs.stat f).isFile && !((fs.stat f).hasNullByte) &&
    (match (fs.stat f).content with
     | none => false
     | some c => !(c == ""))

/-- The final `files_to_index`: the new plus modified files, except that
when that list is empty and a (truthy) repository root is present, the
full-walk fallback supplies the files instead. -/
def filesToIndexOf (plan : SyncPlan) (gitRoot : Option String) (fs : Fs) :
    List String :=
  match gitRoot with
  | some root =>
    if plan.newFiles ++ plan.modifiedFiles = [] then walkFiles root fs
    else plan.newFiles ++ plan.modifiedFiles
  | none => plan.newFiles ++ plan.modifiedFiles

/-- The summary line printed when the plan is non-empty. -/
def updatingMessage (plan : SyncPlan) : String :=
  "Updating context index: " ++ toString plan.newFiles.length ++ " new, " ++
    toString plan.modifiedFiles.length ++ " modified, " ++
    toString plan.deletedFiles.length ++ " deleted."

/-- Observable outcome of one `refresh_index` call: the resulting index,
the sequence of `delete_ref_doc` calls, the sequence of successful
`insert` calls, whether the index was persisted, and the `tool_output`
messages. -/
structure SyncResult where
  index : Index
  deletes : List String
  inserts : List String
  persisted : Bool
  messages : List String
deriving Repr, DecidableEq

/-- `ContextDiscoverer.refresh_index(fnames, git_root)`.  A falsy
`git_root` (absent or empty) is modelled as `none`.  Returns immediately
when `fnames` is falsy; reports up to date (verbose only) and returns when
the plan is empty; otherwise deletes the deleted then the modified files,
builds `files_to_index` (with the full-walk fallback when it would be
empty and a root is available), runs the insertion loop, persists, and
reports. -/
def refresh_index (index : Index) (fnames : List String)
    (gitRoot : Option String) (fs : Fs) (verbose : Bool) : SyncResult :=
  if fnames = [] then
    { index := index, deletes := [], inserts := [], persisted := false, messages := [] }
  else
    let plan := computePlan index fnames fs
    if plan.newFiles = [] ∧ plan.deletedFiles = [] ∧ plan.modifiedFiles = [] then
      { index := index, deletes := [], inserts := [], persisted := false
        messages := if verbose then ["Context index is up to date."] else [] }
    else
      let idx1 := plan.deletedFiles.foldl deleteRefDoc index
      let idx2 := plan.modifiedFiles.foldl deleteRefDoc idx1
      let filesToIndex := filesToIndexOf plan gitRoot fs
      let inserted := insertDocs gitRoot fs idx2 filesToIndex
      { index := inserted.1
        deletes := plan.deletedFiles ++ plan.modifiedFiles
        inserts := inserted.2
        persisted := true
        messages :=
          [updatingMessage plan] ++
            (if inserted.2.length > 0 ∨ plan.deletedFiles ≠ [] then ["Index updated."]
             else []) }

/-- Outcome of a load attempt from the persisted cache
(`load_index_from_storage`): a restored index, or a raised exception. -/
inductive LoadAttempt where
  | ok (index : Index)
  | err
deriving Repr, DecidableEq

/-- Observable outcome of `load_or_create_index` up to the point where the
index handle exists: the in-memory index, whether `shutil.rmtree` was
invoked on the cache directory, and whether a fresh empty index was
created. -/
structure LoadOutcome where
  index : Index
  cacheDeleted : Bool
  createdNew : Bool
deriving Repr, DecidableEq

/-- `ContextDiscoverer.load_or_create_index` (the load/create part, before
the trailing `refresh_index` call): try to load when the cache directory
exists; on a raised load error, best-effort delete the cache directory
(`ignore_errors=True`) and keep the prior in-memory index (set by a
previous call, `none` for a freshly constructed discoverer); if no index
is in memory after that, create a fresh empty one. -/
def load_or_create_index (prior : Option Index) (cacheDirExists : Bool)
    (attempt : LoadAttempt) : LoadOutcome :=
  let afterTry : Option Index × Bool :=
    if cacheDirExists then
      match attempt with
      | .ok idx => (some idx, false)
      | .err => (prior, true)
    else (prior, false)
  match afterTry.1 with
  | some idx => { index := idx, cacheDeleted := afterTry.2, createdNew := false }
  | none => { index := [], cacheDeleted := afterTry.2, createdNew := true }

/-- One retrieved node as the external retriever hands it back: the two
metadata fields the code reads, the score and the text. -/
structure NodeInfo where
  relativePath : Option String
  filename : Option String
  score : Int
  text : String
deriving Repr, DecidableEq

/-- The retrieval handle: `index.as_retriever(similarity_top_k=top_k)` is
modelled by the `top_k` it was built with. -/
structure Retriever where
  topK : Nat
deriving Repr, DecidableEq

/-- The mutable discoverer state that `query` reads and writes. -/
structure QueryState where
  index : Option Index
  retriever : Option Retriever
deriving Repr, DecidableEq

/-- One result record assembled by `query`:
`metadata.get("relative_path", metadata.get("filename"))`, the score and
the text. -/
structure QueryHit where
  file : Option String
  score : Int
  text : String
deriving Repr, DecidableEq

/-- The node-to-result translation in the loop of `query`. -/
def nodeToHit (n : NodeInfo) : QueryHit :=
  { file :=
      match n.relativePath with
      | some rp => some rp
      | none => n.filename
    score := n.score
    text := n.text }

/-- `ContextDiscoverer.query(query_text, top_k)`: empty result when no
index is loaded; otherwise build the retriever on first use (bound to the
given `top_k`), keep any existing one, retrieve, and translate the nodes.
The external `retriever.retrieve` is a parameter. -/
def query (retrieve : Retriever → String → List NodeInfo) (st : QueryState)
    (queryText : String) (topK : Nat) : QueryState × List QueryHit :=
  match st.index with
  | none => (st, [])
  | some _ =>
    let r :=
      match st.retriever with
      | some r => r
      | none => { topK := topK }
    ({ st with retriever := some r }, (retrieve r queryText).map nodeToHit)

/-- The files the update path actually inserts. -/
def plannedInserts (plan : SyncPlan) (gitRoot : Option String) (fs : Fs) :
    List String :=
  (filesToIndexOf plan gitRoot fs).filter (insertableB fs)

/-- The index entries surviving the two deletion loops. -/
def keptAfterDeletes (index : Index) (plan : SyncPlan) : Index :=
  (index.filter (fun p => decide (p.1 ∉ plan.deletedFiles))).filter
    (fun p => decide (p.1 ∉ plan.modifiedFiles))

/-! ### Concrete fixtures used by counterexamples and witnesses -/

/-- A repository with a single indexable file `a.py` at the root. -/
def fsA : Fs :=
  { stat := fun p =>
      if p = "/repo/a.py" then
        { isFile := true, mtime := 5, size := some 10, hasNullByte := false,
          content := some "print" }
      else {}
    entries := [{ dirComponents := [], fileName := "a.py" }]
    ignoreText := none }

/-- An index holding one stale document. -/
def ixOld : Index :=
  [("/repo/old.py", { text := "x", relativePath := "old.py", mtime? := some 1 })]

/-- A repository whose only file `e.py` exists but reads as empty. -/
def fsEmpty : Fs :=
  { stat := fun p =>
      if p = "/repo/e.py" then
        { isFile := true, mtime := 1, size := some 0, hasNullByte := false,
          content := some "" }
      else {}
    entries := []
    ignoreText := none }

/-- A repository whose only file `b.bin` has a null byte in its first chunk. -/
def fsNull : Fs :=
  { stat := fun p =>
      if p = "/repo/b.bin" then
        { isFile := true, mtime := 2, size := some 4, hasNullByte := true,
          content := some "MZ" }
      else {}
    entries := []
    ignoreText := none }

/-- An index holding `m.py` with stored mtime 1. -/
def ixM : Index :=
  [("/repo/m.py", { text := "old", relativePath := "m.py", mtime? := some 1 })]

/-- A filesystem where `m.py` has been modified (mtime 5) and truncated to
empty content. -/
def fsModEmpty : Fs :=
  { stat := fun p =>
      if p = "/repo/m.py" then
        { isFile := true, mtime := 5, size := some 0, hasNullByte := false,
          content := some "" }
      else {}
    entries := []
    ignoreText := none }

/-- A filesystem where `m.py` has been modified (mtime 5) with fresh
non-empty content. -/
def fsMod : Fs :=
  { stat := fun p =>
      if p = "/repo/m.py" then
        { isFile := true, mtime := 5, size := some 3, hasNullByte := false,
          content := some "new" }
      else {}
    entries := []
    ignoreText := none }

/-- A repository with two indexable files `a.py` and `b.py`. -/
def fsAB : Fs :=
  { stat := fun p =>
      if p = "/repo/a.py" then
        { isFile := true, mtime := 5, size := some 10, hasNullByte := false,
          content := some "print" }
      else if p = "/repo/b.py" then
        { isFile := true, mtime := 6, size := some 10, hasNullByte := false,
          content := some "pass" }
      else {}
    entries := []
    ignoreText := none }

/-- A repository with `.aiderignore` holding the pattern `*.log` and one
file `sub/x.log` that matches it. -/
def fsIgnore : Fs :=
  { stat := fun p =>
      if p = "/repo/sub/x.log" then
        { isFile := true, mtime := 3, size := some 7, hasNullByte := false,
          content := some "hello" }
      else {}
    entries := [{ dirComponents := ["sub"], fileName := "x.log" }]
    ignoreText := some (some "*.log\n") }

/-! ### Helper lemmas about the folds inside `refresh_index` -/

/-- One insertion step, rephrased through `insertableB`. -/
theorem insertStep_eq (gitRoot : Option String) (fs : Fs) (acc : Index × List String)
    (f : String) :
    insertStep gitRoot fs acc f =
      if insertableB fs f then ((f, mkDoc gitRoot fs f) :: acc.1, acc.2 ++ [f]) else acc := by
  unfold insertStep insertableB
  rcases hif : (fs.stat f).isFile with _ | _ <;>
    rcases hnb : (fs.stat f).hasNullByte with _ | _ <;>
    rcases hc : (fs.stat f).content with _ | c <;>
    simp [hif, hnb, hc]

/-- Closed form of the insertion loop. -/
theorem insertDocs_foldl_eq (gitRoot : Option String) (fs : Fs) :
    ∀ (files : List String) (acc : Index × List String),
      files.foldl (insertStep gitRoot fs) acc =
        ((files.filter (insertableB fs)).reverse.map
            (fun f => (f, mkDoc gitRoot fs f)) ++ acc.1,
          acc.2 ++ files.filter (insertableB fs)) := by
  intro files
  induction files with
  | nil => intro acc; simp
  | cons f rest ih =>
    intro acc
    rw [List.foldl_cons, ih, insertStep_eq]
    by_cases h : insertableB fs f = true <;> simp [h]

/-- Closed form of `insertDocs`. -/
theorem insertDocs_eq (gitRoot : Option String) (fs : Fs) (index : Index)
    (files : List String) :
    insertDocs gitRoot fs index files =
      ((files.filter (insertableB fs)).reverse.map
          (fun f => (f, mkDoc gitRoot fs f)) ++ index,
        files.filter (insertableB fs)) := by
  unfold insertDocs
  rw [insertDocs_foldl_eq]
  simp

/-- Closed form of a run of `delete_ref_doc` calls: all entries whose id is
among the removed files are dropped. -/
theorem deleteFold_eq :
    ∀ (L : List String) (index : Index),
      L.foldl deleteRefDoc index = index.filter (fun p => decide (p.1 ∉ L)) := by
  intro L
  induction L with
  | nil => intro index; simp
  | cons f rest ih =>
    intro index
    rw [List.foldl_cons]
    show rest.foldl deleteRefDoc (deleteRefDoc index f) = _
    rw [ih, deleteRefDoc, List.filter_filter]
    apply List.filter_congr
    intro p _
    by_cases h1 : p.1 = f <;> by_cases h2 : p.1 ∈ rest <;> simp [h1, h2]

/-- `find?` on a key-tagged map hits the looked-up key. -/
theorem find?_map_key (d : String → IndexDoc) (f : String) :
    ∀ (K : List String), f ∈ K →
      (K.map (fun x => (x, d x))).find? (fun p => p.1 == f) = some (f, d f) := by
  intro K
  induction K with
  | nil => intro h; cases h
  | cons x rest ih =>
    intro h
    by_cases hx : x = f
    · subst hx
      simp [List.find?]
    · have hf : f ∈ rest := by
        rcases List.mem_cons.mp h with h1 | h1
        · exact absurd h1.symm hx
        · exact h1
      have hne : (x == f) = false := by simp [hx]
      simp only [List.map_cons, List.find?, hne]
      exact ih hf

/-- `find?` on a key-tagged map misses an absent key. -/
theorem find?_map_key_none (d : String → IndexDoc) (f : String) :
    ∀ (K : List String), f ∉ K →
      (K.map (fun x => (x, d x))).find? (fun p => p.1 == f) = none := by
  intro K
  induction K with
  | nil => intro _; rfl
  | cons x rest ih =>
    intro h
    have hx : (x == f) = false := by
      simp only [beq_eq_false_iff_ne, ne_eq]
      intro hxf
      exact h (hxf ▸ List.mem_cons_self x rest)
    simp only [List.map_cons, List.find?, hx]
    exact ih (fun hf => h (List.mem_cons_of_mem x hf))

/-- `find?` over an append whose first part has no hit. -/
theorem find?_append_of_none {α : Type} (p : α → Bool) (l₁ l₂ : List α)
    (h : l₁.find? p = none) : (l₁ ++ l₂).find? p = l₂.find? p := by
  rw [List.find?_append, h]
  rfl

/-- Filtering by a predicate implied by the search predicate does not change
the first hit. -/
theorem find?_filter_of_imp {α : Type} (p q : α → Bool) :
    ∀ (l : List α), (∀ x ∈ l, p x = true → q x = true) →
      (l.filter q).find? p = l.find? p := by
  intro l
  induction l with
  | nil => intro _; rfl
  | cons a rest ih =>
    intro h
    have hrec := ih (fun x hx => h x (List.mem_cons_of_mem a hx))
    by_cases hp : p a = true
    · have hq := h a (List.mem_cons_self a rest) hp
      rw [List.filter_cons, if_pos hq, List.find?_cons_of_pos _ hp,
        List.find?_cons_of_pos _ hp]
    · rw [List.find?_cons_of_neg _ hp]
      by_cases hq : q a = true
      · rw [List.filter_cons, if_pos hq, List.find?_cons_of_neg _ hp, hrec]
      · rw [List.filter_cons, if_neg hq, hrec]

/-- Branch: a falsy file list returns immediately. -/
theorem refresh_index_nil (index : Index) (gitRoot : Option String) (fs : Fs)
    (verbose : Bool) :
    refresh_index index [] gitRoot fs verbose =
      { index := index, deletes := [], inserts := [], persisted := false,
        messages := [] } := rfl

/-- Branch: an entirely empty plan reports up to date and changes nothing. -/
theorem refresh_index_upToDate (index : Index) (fnames : List String)
    (gitRoot : Option String) (fs : Fs) (verbose : Bool)
    (h0 : fnames ≠ [])
    (h1 : (computePlan index fnames fs).newFiles = [])
    (h2 : (computePlan index fnames fs).deletedFiles = [])
    (h3 : (computePlan index fnames fs).modifiedFiles = []) :
    refresh_index index fnames gitRoot fs verbose =
      { index := index, deletes := [], inserts := [], persisted := false,
        messages := if verbose then ["Context index is up to date."] else [] } := by
  simp only [refresh_index]
  rw [if_neg h0, if_pos ⟨h1, h2, h3⟩]

/-- Branch: a non-empty plan runs the deletions, the insertion loop and the
persist, in closed form. -/
theorem refresh_index_update (index : Index) (fnames : List String)
    (gitRoot : Option String) (fs : Fs) (verbose : Bool)
    (h0 : fnames ≠ [])
    (h1 : ¬((computePlan index fnames fs).newFiles = [] ∧
        (computePlan index fnames fs).deletedFiles = [] ∧
        (computePlan index fnames fs).modifiedFiles = [])) :
    refresh_index index fnames gitRoot fs verbose =
      { index :=
          (plannedInserts (computePlan index fnames fs) gitRoot fs).reverse.map
              (fun f => (f, mkDoc gitRoot fs f)) ++
            keptAfterDeletes index (computePlan index fnames fs)
        deletes := (computePlan index fnames fs).deletedFiles ++
          (computePlan index fnames fs).modifiedFiles
        inserts := plannedInserts (computePlan index fnames fs) gitRoot fs
        persisted := true
        messages :=
          [updatingMessage (computePlan index fnames fs)] ++
            (if (plannedInserts (computePlan index fnames fs) gitRoot fs).length > 0 ∨
                (computePlan index fnames fs).deletedFiles ≠ [] then
              ["Index updated."]
            else []) } := by
  simp only [refresh_index]
  rw [if_neg h0, if_neg h1, deleteFold_eq, deleteFold_eq, insertDocs_eq]
  rfl

/-- When new or modified files exist, the fallback walk is not taken. -/
theorem filesToIndexOf_of_ne (plan : SyncPlan) (gitRoot : Option String) (fs : Fs)
    (h : plan.newFiles ++ plan.modifiedFiles ≠ []) :
    filesToIndexOf plan gitRoot fs = plan.newFiles ++ plan.modifiedFiles := by
  cases gitRoot <;> simp [filesToIndexOf, h]

/-- Membership in the id set of the index. -/
theorem mem_indexIds (index : Index) (x : String) :
    x ∈ indexIds index ↔ x ∈ index.map Prod.fst := by
  simp [indexIds, List.mem_dedup]

/-- Membership in the computed new set. -/
theorem mem_newFiles (index : Index) (fnames : List String) (fs : Fs) (x : String) :
    x ∈ (computePlan index fnames fs).newFiles ↔
      x ∈ fnames ∧ x ∉ indexIds index := by
  simp [computePlan, List.mem_filter, List.mem_dedup]

/-- Membership in the computed deleted set. -/
theorem mem_deletedFiles (index : Index) (fnames : List String) (fs : Fs) (x : String) :
    x ∈ (computePlan index fnames fs).deletedFiles ↔
      x ∈ indexIds index ∧ x ∉ fnames := by
  simp [computePlan, List.mem_filter, List.mem_dedup]

/-- Membership in the computed modified set. -/
theorem mem_modifiedFiles (index : Index) (fnames : List String) (fs : Fs) (x : String) :
    x ∈ (computePlan index fnames fs).modifiedFiles ↔
      x ∈ fnames ∧ x ∈ indexIds index ∧ (fs.stat x).isFile = true ∧
        storedMtime index x < (fs.stat x).mtime := by
  simp only [computePlan, List.mem_filter, List.mem_dedup, Bool.and_eq_true,
    decide_eq_true_eq]
  tauto

/-- The new set has no duplicates. -/
theorem nodup_newFiles (index : Index) (fnames : List String) (fs : Fs) :
    (computePlan index fnames fs).newFiles.Nodup :=
  List.Nodup.filter _ (List.nodup_dedup fnames)

/-- The deleted set has no duplicates. -/
theorem nodup_deletedFiles (index : Index) (fnames : List String) (fs : Fs) :
    (computePlan index fnames fs).deletedFiles.Nodup :=
  List.Nodup.filter _ (List.nodup_dedup _)

/-- The modified set has no duplicates. -/
theorem nodup_modifiedFiles (index : Index) (fnames : List String) (fs : Fs) :
    (computePlan index fnames fs).modifiedFiles.Nodup :=
  List.Nodup.filter _ (List.Nodup.filter _ (List.nodup_dedup fnames))

/-- Keys of the freshly inserted entries. -/
theorem map_fst_mkDoc (gitRoot : Option String) (fs : Fs) (K : List String) :
    (K.map (fun f => (f, mkDoc gitRoot fs f))).map Prod.fst = K := by
  induction K with
  | nil => rfl
  | cons a t ih => simp [ih]

/-- Appending to the root is injective in the relative component. -/
theorem joinPath_right_inj (root a b : String)
    (h : joinPath root a = joinPath root b) : a = b := by
  unfold joinPath at h
  have hd := congrArg String.data h
  simp only [String.data_append] at hd
  have hab := List.append_cancel_left hd
  cases a
  cases b
  exact congrArg String.mk (by simpa using hab)

/-- Every recorded insertion passed the insertability checks of the loop. -/
theorem inserts_insertable (index : Index) (fnames : List String)
    (gitRoot : Option String) (fs : Fs) (verbose : Bool) (f : String)
    (h : f ∈ (refresh_index index fnames gitRoot fs verbose).inserts) :
    insertableB fs f = true := by
  by_cases h0 : fnames = []
  · rw [h0, refresh_index_nil] at h
    cases h
  · by_cases h1 : (computePlan index fnames fs).newFiles = [] ∧
        (computePlan index fnames fs).deletedFiles = [] ∧
        (computePlan index fnames fs).modifiedFiles = []
    · rw [refresh_index_upToDate index fnames gitRoot fs verbose h0 h1.1 h1.2.1 h1.2.2] at h
      cases h
    · rw [refresh_index_update index fnames gitRoot fs verbose h0 h1] at h
      exact (List.mem_filter.mp h).2

/-- A file that passes the insertability checks is a regular file. -/
theorem insertableB_isFile (fs : Fs) (x : String) (h : insertableB fs x = true) :
    (fs.stat x).isFile = true := by
  unfold insertableB at h
  rcases hif : (fs.stat x).isFile with _ | _
  · rw [hif] at h
    simp at h
  · rfl

/-- Keys surviving the deletion loops: exactly the previously indexed ids
outside the deleted and modified sets. -/
theorem mem_keys_kept (index : Index) (plan : SyncPlan) (x : String) :
    x ∈ (keptAfterDeletes index plan).map Prod.fst ↔
      x ∈ index.map Prod.fst ∧ x ∉ plan.deletedFiles ∧ x ∉ plan.modifiedFiles := by
  unfold keptAfterDeletes
  constructor
  · intro h
    rcases List.mem_map.mp h with ⟨p, hp, hpf⟩
    have hp2 := List.mem_filter.mp hp
    have hp1 := List.mem_filter.mp hp2.1
    refine ⟨List.mem_map.mpr ⟨p, hp1.1, hpf⟩, ?_, ?_⟩
    · have hd := hp1.2
      simp only [decide_eq_true_eq] at hd
      rw [← hpf]
      exact hd
    · have hm := hp2.2
      simp only [decide_eq_true_eq] at hm
      rw [← hpf]
      exact hm
  · rintro ⟨hx, hd, hm⟩
    rcases List.mem_map.mp hx with ⟨p, hp, hpf⟩
    refine List.mem_map.mpr ⟨p, ?_, hpf⟩
    refine List.mem_filter.mpr ⟨List.mem_filter.mpr ⟨hp, ?_⟩, ?_⟩
    · simp only [decide_eq_true_eq]
      rw [hpf]
      exact hd
    · simp only [decide_eq_true_eq]
      rw [hpf]
      exact hm

/-- Ids of the index after the update branch: the inserted files plus the
kept ids. -/
theorem mem_ids_update (index : Index) (fnames : List String)
    (gitRoot : Option String) (fs : Fs) (verbose : Bool) (x : String)
    (h0 : fnames ≠ [])
    (h1 : ¬((computePlan index fnames fs).newFiles = [] ∧
        (computePlan index fnames fs).deletedFiles = [] ∧
        (computePlan index fnames fs).modifiedFiles = [])) :
    x ∈ indexIds (refresh_index index fnames gitRoot fs verbose).index ↔
      x ∈ plannedInserts (computePlan index fnames fs) gitRoot fs ∨
        (x ∈ indexIds index ∧ x ∉ (computePlan index fnames fs).deletedFiles ∧
          x ∉ (computePlan index fnames fs).modifiedFiles) := by
  rw [refresh_index_update index fnames gitRoot fs verbose h0 h1]
  rw [mem_indexIds]
  dsimp only
  rw [List.map_append, List.mem_append, map_fst_mkDoc, List.mem_reverse,
    mem_keys_kept]
  rw [mem_indexIds]

/-- `storedMtime` over an append whose front finds the key. -/
theorem storedMtime_append_found (l₁ l₂ : Index) (x : String) (d : IndexDoc)
    (h : l₁.find? (fun p => p.1 == x) = some (x, d)) :
    storedMtime (l₁ ++ l₂) x = d.mtime?.getD 0 := by
  unfold storedMtime
  rw [List.find?_append, h]
  rfl

/-- `storedMtime` over an append whose front misses the key. -/
theorem storedMtime_append_miss (l₁ l₂ : Index) (x : String)
    (h : l₁.find? (fun p => p.1 == x) = none) :
    storedMtime (l₁ ++ l₂) x = storedMtime l₂ x := by
  unfold storedMtime
  rw [List.find?_append, h]
  rfl

/-- `storedMtime` is unchanged by the deletion loops for a key that is
neither deleted nor modified. -/
theorem storedMtime_kept (index : Index) (plan : SyncPlan) (x : String)
    (hd : x ∉ plan.deletedFiles) (hm : x ∉ plan.modifiedFiles) :
    storedMtime (keptAfterDeletes index plan) x = storedMtime index x := by
  unfold storedMtime keptAfterDeletes
  have himp2 : ∀ p ∈ index.filter (fun p => decide (p.1 ∉ plan.deletedFiles)),
      ((fun p : String × IndexDoc => p.1 == x) p = true) →
        ((fun p : String × IndexDoc => decide (p.1 ∉ plan.modifiedFiles)) p = true) := by
    intro p _ hbeq
    have hpx : p.1 = x := by simpa using hbeq
    simp only [decide_eq_true_eq]
    rw [hpx]
    exact hm
  have himp1 : ∀ p ∈ index,
      ((fun p : String × IndexDoc => p.1 == x) p = true) →
        ((fun p : String × IndexDoc => decide (p.1 ∉ plan.deletedFiles)) p = true) := by
    intro p _ hbeq
    have hpx : p.1 = x := by simpa using hbeq
    simp only [decide_eq_true_eq]
    rw [hpx]
    exact hd
  rw [find?_filter_of_imp _ _ _ himp2, find?_filter_of_imp _ _ _ himp1]

/-! ### Claim theorems -/

/-- C1, counterexample: with an empty file list and a repository root whose
walk would find the indexable file `a.py`, `refresh_index` performs no walk
and no indexing at all: it returns with the index unchanged, no deletions,
no insertions, nothing persisted and no output, contradicting the claimed
full-walk fallback. -/
theorem c1_counterexample :
    walkFiles "/repo" fsA = ["/repo/a.py"] ∧
      refresh_index ixOld [] (some "/repo") fsA true =
        { index := ixOld, deletes := [], inserts := [], persisted := false,
          messages := [] } := by
  constructor
  · rfl
  · rfl

/-- C1, amended: for every call to sync with an empty file list,
`refresh_index` returns immediately without doing anything: no walk, no
deletions, no insertions, no persist, no report, and the index unchanged.
(The full recursive walk instead runs only when the file list is non-empty
and the computed plan has deletions but no new and no modified files.) -/
theorem c1_empty_list_returns_without_walking (index : Index)
    (gitRoot : Option String) (fs : Fs) (verbose : Bool) :
    refresh_index index [] gitRoot fs verbose =
      { index := index, deletes := [], inserts := [], persisted := false,
        messages := [] } := rfl

/-- C5: a file whose read content is `None` (unreadable) or empty is never
inserted into the index by `refresh_index`, even when it is explicitly
listed in the file list; the sync is not aborted (the call still returns a
result covering the remaining files). -/
theorem c5_empty_or_unreadable_never_inserted (index : Index)
    (fnames : List String) (gitRoot : Option String) (fs : Fs) (verbose : Bool)
    (f : String)
    (h : (fs.stat f).content = none ∨ (fs.stat f).content = some "") :
    f ∉ (refresh_index index fnames gitRoot fs verbose).inserts := by
  intro hmem
  have hins := inserts_insertable index fnames gitRoot fs verbose f hmem
  unfold insertableB at hins
  rcases h with h | h <;> simp [h] at hins

/-- C5, witness: the empty file `e.py`, explicitly listed, is not inserted. -/
theorem c5_witness :
    (fsEmpty.stat "/repo/e.py").content = some "" ∧
      "/repo/e.py" ∉
        (refresh_index [] ["/repo/e.py"] (some "/repo") fsEmpty true).inserts :=
  ⟨by decide,
    c5_empty_or_unreadable_never_inserted [] ["/repo/e.py"] (some "/repo")
      fsEmpty true "/repo/e.py" (Or.inr (by decide))⟩

/-- C10: the null-byte binary heuristic is applied at insertion time to
every file in `files_to_index`: a file whose first 1 KiB chunk contains a
null byte is never inserted, even when its path is explicitly passed in the
file list (the ignore patterns, by contrast, are consulted only inside the
walk). -/
theorem c10_null_byte_never_inserted (index : Index) (fnames : List String)
    (gitRoot : Option String) (fs : Fs) (verbose : Bool) (f : String)
    (h : (fs.stat f).hasNullByte = true) :
    f ∉ (refresh_index index fnames gitRoot fs verbose).inserts := by
  intro hmem
  have hins := inserts_insertable index fnames gitRoot fs verbose f hmem
  unfold insertableB at hins
  simp [h] at hins

/-- C10, witness: the binary file `b.bin`, explicitly listed, is not
inserted. -/
theorem c10_witness :
    (fsNull.stat "/repo/b.bin").hasNullByte = true ∧
      "/repo/b.bin" ∈ ["/repo/b.bin"] ∧
      "/repo/b.bin" ∉
        (refresh_index [] ["/repo/b.bin"] (some "/repo") fsNull true).inserts :=
  ⟨by decide, by decide,
    c10_null_byte_never_inserted [] ["/repo/b.bin"] (some "/repo") fsNull true
      "/repo/b.bin" (by decide)⟩

/-- C7: `load_or_create_index` of a freshly constructed discoverer always
yields an index handle and never an error: a successful load restores the
persisted index; a failed load best-effort deletes the cache directory and
falls through to a fresh empty index; a missing cache directory skips
straight to a fresh empty index without deleting anything. -/
theorem c7_load_or_create_total (cacheDirExists : Bool) (attempt : LoadAttempt) :
    load_or_create_index none cacheDirExists attempt =
      match cacheDirExists, attempt with
      | true, .ok idx =>
        { index := idx, cacheDeleted := false, createdNew := false }
      | true, .err => { index := [], cacheDeleted := true, createdNew := true }
      | false, _ => { index := [], cacheDeleted := false, createdNew := true } := by
  cases cacheDirExists <;> cases attempt <;> rfl

/-- C8: every plan computed by `refresh_index` satisfies the invariants:
the new and deleted sets are disjoint, the modified set is contained in the
intersection of the current file set and the indexed set, and every member
of the modified set was a regular file on disk at check time (paths missing
from disk are excluded). -/
theorem c8_plan_invariants (index : Index) (fnames : List String) (fs : Fs) :
    ((computePlan index fnames fs).newFiles.all
        (fun x => decide (x ∉ (computePlan index fnames fs).deletedFiles)) = true) ∧
      ((computePlan index fnames fs).modifiedFiles.all
        (fun x => decide (x ∈ fnames) && decide (x ∈ indexIds index)) = true) ∧
      ((computePlan index fnames fs).modifiedFiles.all
        (fun x => (fs.stat x).isFile) = true) := by
  refine ⟨?_, ?_, ?_⟩
  · rw [List.all_eq_true]
    intro x hx
    rw [mem_newFiles] at hx
    simp only [decide_eq_true_eq]
    rw [mem_deletedFiles]
    tauto
  · rw [List.all_eq_true]
    intro x hx
    rw [mem_modifiedFiles] at hx
    simp [hx.1, hx.2.1]
  · rw [List.all_eq_true]
    intro x hx
    rw [mem_modifiedFiles] at hx
    exact hx.2.2.1

/-- C9: `query` builds its retrieval handle lazily, bound to the `top_k` of
the first call, and reuses that same handle on every later call even when a
different `top_k` is passed: after two calls the stored handle still
carries the first `top_k`, and the second call retrieves through it.  With
no index loaded, `query` returns an empty list and leaves the state
unchanged. -/
theorem c9_retriever_lazy_and_reused
    (retrieve : Retriever → String → List NodeInfo) (idx : Index)
    (q1 q2 : String) (k1 k2 : Nat) (r0 : Option Retriever) :
    (query retrieve { index := some idx, retriever := none } q1 k1).1.retriever =
        some { topK := k1 } ∧
      (query retrieve
          (query retrieve { index := some idx, retriever := none } q1 k1).1
          q2 k2).1.retriever = some { topK := k1 } ∧
      (query retrieve
          (query retrieve { index := some idx, retriever := none } q1 k1).1
          q2 k2).2 = (retrieve { topK := k1 } q2).map nodeToHit ∧
      query retrieve { index := none, retriever := r0 } q1 k1 =
        ({ index := none, retriever := r0 }, []) :=
  ⟨rfl, rfl, rfl, rfl⟩

/-- C4, counterexample: `m.py` is in the file list and in the index with an
advanced on-disk mtime (5 over stored 1), but it was truncated to empty
content: the sync deletes its document once and re-inserts it zero times,
not exactly once as the claim states. -/
theorem c4_counterexample :
    (refresh_index ixM ["/repo/m.py"] (some "/repo") fsModEmpty false).deletes =
        ["/repo/m.py"] ∧
      (refresh_index ixM ["/repo/m.py"] (some "/repo") fsModEmpty false).inserts =
        [] := by
  decide

/-- C4, amended: a file present in both the file list and the index whose
on-disk mtime exceeds its stored mtime is deleted from the index exactly
once and re-inserted at most once — exactly once when it passes the
insertability checks (regular file, no null byte, non-empty readable
content), zero times otherwise — so after the sync the index holds at most
one document for it. -/
theorem c4_modified_deleted_once_inserted_at_most_once (index : Index)
    (fnames : List String) (gitRoot : Option String) (fs : Fs) (verbose : Bool)
    (f : String)
    (h1 : f ∈ fnames)
    (h2 : f ∈ indexIds index)
    (h3 : (fs.stat f).isFile = true)
    (h4 : storedMtime index f < (fs.stat f).mtime) :
    ((refresh_index index fnames gitRoot fs verbose).deletes.count f = 1) ∧
      ((refresh_index index fnames gitRoot fs verbose).inserts.count f =
        if insertableB fs f then 1 else 0) ∧
      (((refresh_index index fnames gitRoot fs verbose).index.map Prod.fst).count f
        ≤ 1) := by
  have h0 : fnames ≠ [] := List.ne_nil_of_mem h1
  have hmod : f ∈ (computePlan index fnames fs).modifiedFiles :=
    (mem_modifiedFiles index fnames fs f).mpr ⟨h1, h2, h3, h4⟩
  have hplan : ¬((computePlan index fnames fs).newFiles = [] ∧
      (computePlan index fnames fs).deletedFiles = [] ∧
      (computePlan index fnames fs).modifiedFiles = []) := by
    intro hall
    rw [hall.2.2] at hmod
    cases hmod
  have hftib : (computePlan index fnames fs).newFiles ++
      (computePlan index fnames fs).modifiedFiles ≠ [] := by
    intro hnil
    rw [(List.append_eq_nil.mp hnil).2] at hmod
    cases hmod
  have hfti := filesToIndexOf_of_ne (computePlan index fnames fs) gitRoot fs hftib
  have hnotnew : f ∉ (computePlan index fnames fs).newFiles := by
    intro hn
    exact ((mem_newFiles index fnames fs f).mp hn).2 h2
  have hnotdel : f ∉ (computePlan index fnames fs).deletedFiles := by
    intro hd
    exact ((mem_deletedFiles index fnames fs f).mp hd).2 h1
  have hcntbase : ((computePlan index fnames fs).newFiles ++
      (computePlan index fnames fs).modifiedFiles).count f = 1 := by
    rw [List.count_append, List.count_eq_zero_of_not_mem hnotnew,
      List.count_eq_one_of_mem (nodup_modifiedFiles index fnames fs) hmod]
  have hcntins : (plannedInserts (computePlan index fnames fs) gitRoot fs).count f =
      if insertableB fs f then 1 else 0 := by
    unfold plannedInserts
    rw [hfti]
    by_cases hins : insertableB fs f = true
    · rw [if_pos hins, List.count_filter hins, hcntbase]
    · rw [if_neg hins, List.count_eq_zero_of_not_mem]
      intro hmem
      exact hins (List.mem_filter.mp hmem).2
  rw [refresh_index_update index fnames gitRoot fs verbose h0 hplan]
  refine ⟨?_, ?_, ?_⟩
  · rw [List.count_append, List.count_eq_zero_of_not_mem hnotdel,
      List.count_eq_one_of_mem (nodup_modifiedFiles index fnames fs) hmod]
  · exact hcntins
  · have hkept : ((keptAfterDeletes index (computePlan index fnames fs)).map
        Prod.fst).count f = 0 := by
      rw [List.count_eq_zero_of_not_mem]
      intro hmem
      rcases List.mem_map.mp hmem with ⟨p, hp, hpf⟩
      have h2f := (List.mem_filter.mp hp).2
      simp only [decide_eq_true_eq] at h2f
      exact h2f (by rw [hpf]; exact hmod)
    rw [List.map_append, List.count_append, map_fst_mkDoc, List.count_reverse,
      hcntins, hkept]
    split <;> omega

/-- C4, witness: the modified, still readable file `m.py` is deleted once
and re-inserted exactly once, leaving a single document. -/
theorem c4_witness :
    storedMtime ixM "/repo/m.py" < (fsMod.stat "/repo/m.py").mtime ∧
      ((refresh_index ixM ["/repo/m.py"] (some "/repo") fsMod false).deletes.count
          "/repo/m.py" = 1) ∧
      ((refresh_index ixM ["/repo/m.py"] (some "/repo") fsMod false).inserts.count
          "/repo/m.py" = if insertableB fsMod "/repo/m.py" then 1 else 0) ∧
      (((refresh_index ixM ["/repo/m.py"] (some "/repo") fsMod false).index.map
          Prod.fst).count "/repo/m.py" ≤ 1) :=
  ⟨by decide,
    c4_modified_deleted_once_inserted_at_most_once ixM ["/repo/m.py"]
      (some "/repo") fsMod false "/repo/m.py" (by decide) (by decide) (by decide)
      (by decide)⟩

/-- C3, counterexample: syncing the same one-element file list twice with
unchanged mtimes, where the listed file `e.py` exists but is empty: the
first call cannot insert it, so the second call again classifies it as new,
reports an update (not "up to date") and persists the index, contradicting
the claim. -/
theorem c3_counterexample :
    (refresh_index
        (refresh_index [] ["/repo/e.py"] (some "/repo") fsEmpty true).index
        ["/repo/e.py"] (some "/repo") fsEmpty true).persisted = true ∧
      (refresh_index
          (refresh_index [] ["/repo/e.py"] (some "/repo") fsEmpty true).index
          ["/repo/e.py"] (some "/repo") fsEmpty true).messages =
        ["Updating context index: 1 new, 0 modified, 0 deleted."] := by
  decide

/-- A first sync of an all-insertable file list from an empty index indexes
exactly that list, storing the current mtimes. -/
theorem first_sync_from_empty (F : List String) (gitRoot : Option String)
    (fs : Fs) (verbose : Bool) (hins : ∀ f ∈ F, insertableB fs f = true) :
    (∀ x, x ∈ indexIds (refresh_index [] F gitRoot fs verbose).index ↔ x ∈ F) ∧
      (∀ x ∈ F, storedMtime (refresh_index [] F gitRoot fs verbose).index x =
        (fs.stat x).mtime) := by
  by_cases hF : F = []
  · subst hF
    rw [refresh_index_nil]
    constructor
    · intro x
      simp [indexIds]
    · intro x hx
      cases hx
  · have hid0 : indexIds ([] : Index) = [] := rfl
    have hnew1 : ∀ x, x ∈ (computePlan [] F fs).newFiles ↔ x ∈ F := by
      intro x
      rw [mem_newFiles, hid0]
      simp
    have hmod1 : (computePlan [] F fs).modifiedFiles = [] := by
      rw [List.eq_nil_iff_forall_not_mem]
      intro x hx
      have hm := ((mem_modifiedFiles [] F fs x).mp hx).2.1
      rw [hid0] at hm
      cases hm
    have hplan : ¬((computePlan [] F fs).newFiles = [] ∧
        (computePlan [] F fs).deletedFiles = [] ∧
        (computePlan [] F fs).modifiedFiles = []) := by
      intro hall
      rcases List.exists_mem_of_ne_nil F hF with ⟨a, ha⟩
      have hm := (hnew1 a).mpr ha
      rw [hall.1] at hm
      cases hm
    have hbase : (computePlan [] F fs).newFiles ++
        (computePlan [] F fs).modifiedFiles ≠ [] := by
      intro hnil
      rcases List.exists_mem_of_ne_nil F hF with ⟨a, ha⟩
      have hm := List.mem_append_left (computePlan [] F fs).modifiedFiles
        ((hnew1 a).mpr ha)
      rw [hnil] at hm
      cases hm
    have hfti := filesToIndexOf_of_ne (computePlan [] F fs) gitRoot fs hbase
    have hplanned : plannedInserts (computePlan [] F fs) gitRoot fs =
        (computePlan [] F fs).newFiles ++ (computePlan [] F fs).modifiedFiles := by
      unfold plannedInserts
      rw [hfti, List.filter_eq_self]
      intro a ha
      rcases List.mem_append.mp ha with h | h
      · exact hins a ((hnew1 a).mp h)
      · exact hins a ((mem_modifiedFiles [] F fs a).mp h).1
    have hplmem : ∀ x, x ∈ plannedInserts (computePlan [] F fs) gitRoot fs ↔
        x ∈ F := by
      intro x
      rw [hplanned]
      constructor
      · intro h
        rcases List.mem_append.mp h with h | h
        · exact (hnew1 x).mp h
        · rw [hmod1] at h
          cases h
      · intro h
        exact List.mem_append.mpr (Or.inl ((hnew1 x).mpr h))
    constructor
    · intro x
      rw [mem_ids_update [] F gitRoot fs verbose x hF hplan, hplmem x]
      constructor
      · rintro (h | ⟨hid, _, _⟩)
        · exact h
        · rw [hid0] at hid
          cases hid
      · exact Or.inl
    · intro x hx
      rw [refresh_index_update [] F gitRoot fs verbose hF hplan]
      dsimp only
      rw [storedMtime_append_found _ _ x (mkDoc gitRoot fs x)
        (find?_map_key (mkDoc gitRoot fs) x _
          (List.mem_reverse.mpr ((hplmem x).mpr hx)))]
      rfl

/-- C2, amended: starting from an empty index, after `sync(F2)` following
`sync(F1)` the set of indexed document ids equals F2, provided that the
filesystem is unchanged between the calls, every file of F1 and of F2
passes the insertability checks, F2 is non-empty (an empty list makes the
second call return immediately), and the second call does not trigger the
deletions-only full-walk fallback (either F2 brings a new file, or F1 is
contained in F2, or no repository root is supplied). -/
theorem c2_second_sync_sets_ids_to_f2 (F1 F2 : List String)
    (gitRoot : Option String) (fs : Fs) (verbose : Bool)
    (hins1 : ∀ f ∈ F1, insertableB fs f = true)
    (hins2 : ∀ f ∈ F2, insertableB fs f = true)
    (hF2 : F2 ≠ [])
    (hwalk : (∃ f ∈ F2, f ∉ F1) ∨ (∀ f ∈ F1, f ∈ F2) ∨ gitRoot = none) :
    (indexIds (refresh_index
        (refresh_index [] F1 gitRoot fs verbose).index F2 gitRoot fs
        verbose).index).toFinset = F2.toFinset := by
  have hfirst := first_sync_from_empty F1 gitRoot fs verbose hins1
  have hids1 := hfirst.1
  have hstored1 := hfirst.2
  have hmod2 : (computePlan (refresh_index [] F1 gitRoot fs verbose).index F2
      fs).modifiedFiles = [] := by
    rw [List.eq_nil_iff_forall_not_mem]
    intro x hx
    rcases (mem_modifiedFiles _ F2 fs x).mp hx with ⟨_, hxid, _, hlt⟩
    rw [hstored1 x ((hids1 x).mp hxid)] at hlt
    exact absurd hlt (lt_irrefl _)
  have hdel2mem : ∀ x,
      x ∈ (computePlan (refresh_index [] F1 gitRoot fs verbose).index F2
        fs).deletedFiles ↔ (x ∈ F1 ∧ x ∉ F2) := by
    intro x
    rw [mem_deletedFiles, hids1 x]
  by_cases hplan2 : ((computePlan (refresh_index [] F1 gitRoot fs verbose).index
      F2 fs).newFiles = [] ∧
      (computePlan (refresh_index [] F1 gitRoot fs verbose).index F2
        fs).deletedFiles = [] ∧
      (computePlan (refresh_index [] F1 gitRoot fs verbose).index F2
        fs).modifiedFiles = [])
  · rw [refresh_index_upToDate _ F2 gitRoot fs verbose hF2 hplan2.1 hplan2.2.1
      hplan2.2.2]
    dsimp only
    apply Finset.ext
    intro x
    simp only [List.mem_toFinset]
    rw [hids1 x]
    constructor
    · intro hxF1
      by_contra hxF2
      have hc := (hdel2mem x).mpr ⟨hxF1, hxF2⟩
      rw [hplan2.2.1] at hc
      cases hc
    · intro hxF2
      by_contra hxF1
      have hc : x ∈ (computePlan (refresh_index [] F1 gitRoot fs verbose).index
          F2 fs).newFiles :=
        (mem_newFiles _ F2 fs x).mpr ⟨hxF2, fun hc0 => hxF1 ((hids1 x).mp hc0)⟩
      rw [hplan2.1] at hc
      cases hc
  · by_cases hbase2 : ((computePlan (refresh_index [] F1 gitRoot fs
        verbose).index F2 fs).newFiles ++
        (computePlan (refresh_index [] F1 gitRoot fs verbose).index F2
          fs).modifiedFiles = [])
    · have hnew2 : (computePlan (refresh_index [] F1 gitRoot fs verbose).index
          F2 fs).newFiles = [] := (List.append_eq_nil.mp hbase2).1
      rcases hwalk with ⟨g, hgF2, hgF1⟩ | hsub12 | hg
      · exfalso
        have hc : g ∈ (computePlan (refresh_index [] F1 gitRoot fs
            verbose).index F2 fs).newFiles :=
          (mem_newFiles _ F2 fs g).mpr ⟨hgF2, fun hc0 => hgF1 ((hids1 g).mp hc0)⟩
        rw [hnew2] at hc
        cases hc
      · exfalso
        apply hplan2
        refine ⟨hnew2, ?_, hmod2⟩
        rw [List.eq_nil_iff_forall_not_mem]
        intro x hx
        rcases (hdel2mem x).mp hx with ⟨hxF1, hxnF2⟩
        exact hxnF2 (hsub12 x hxF1)
      · subst hg
        have hplanned2 : plannedInserts (computePlan (refresh_index [] F1 none
            fs verbose).index F2 fs) none fs = [] := by
          unfold plannedInserts filesToIndexOf
          rw [hbase2]
          rfl
        apply Finset.ext
        intro x
        simp only [List.mem_toFinset]
        rw [mem_ids_update _ F2 none fs verbose x hF2 hplan2, hplanned2,
          hids1 x]
        constructor
        · rintro (h | ⟨hxF1, hnd, _⟩)
          · cases h
          · by_contra hxF2
            exact hnd ((hdel2mem x).mpr ⟨hxF1, hxF2⟩)
        · intro hxF2
          have hxF1 : x ∈ F1 := by
            by_contra hxnF1
            have hc : x ∈ (computePlan (refresh_index [] F1 none fs
                verbose).index F2 fs).newFiles :=
              (mem_newFiles _ F2 fs x).mpr
                ⟨hxF2, fun hc0 => hxnF1 ((hids1 x).mp hc0)⟩
            rw [hnew2] at hc
            cases hc
          refine Or.inr ⟨hxF1, ?_, ?_⟩
          · intro hc
            exact ((hdel2mem x).mp hc).2 hxF2
          · rw [hmod2]
            exact List.not_mem_nil x
    · have hfti2 := filesToIndexOf_of_ne (computePlan (refresh_index [] F1
        gitRoot fs verbose).index F2 fs) gitRoot fs hbase2
      have hplanned2 : plannedInserts (computePlan (refresh_index [] F1 gitRoot
          fs verbose).index F2 fs) gitRoot fs =
          (computePlan (refresh_index [] F1 gitRoot fs verbose).index F2
            fs).newFiles ++
            (computePlan (refresh_index [] F1 gitRoot fs verbose).index F2
              fs).modifiedFiles := by
        unfold plannedInserts
        rw [hfti2, List.filter_eq_self]
        intro a ha
        rcases List.mem_append.mp ha with h | h
        · exact hins2 a ((mem_newFiles _ F2 fs a).mp h).1
        · exact hins2 a ((mem_modifiedFiles _ F2 fs a).mp h).1
      apply Finset.ext
      intro x
      simp only [List.mem_toFinset]
      rw [mem_ids_update _ F2 gitRoot fs verbose x hF2 hplan2, hplanned2,
        hmod2, List.append_nil, hids1 x]
      constructor
      · rintro (h | ⟨hxF1, hnd, _⟩)
        · exact ((mem_newFiles _ F2 fs x).mp h).1
        · by_contra hxF2
          exact hnd ((hdel2mem x).mpr ⟨hxF1, hxF2⟩)
      · intro hxF2
        by_cases hxF1 : x ∈ F1
        · refine Or.inr ⟨hxF1, ?_, List.not_mem_nil x⟩
          intro hc
          exact ((hdel2mem x).mp hc).2 hxF2
        · exact Or.inl ((mem_newFiles _ F2 fs x).mpr
            ⟨hxF2, fun hc0 => hxF1 ((hids1 x).mp hc0)⟩)

/-- C2, witness: `sync(["/repo/b.py"])` after `sync(["/repo/a.py"])` from
an empty index leaves exactly `b.py` indexed.  -/
theorem c2_witness :
    (indexIds (refresh_index
        (refresh_index [] ["/repo/a.py"] (some "/repo") fsAB false).index
        ["/repo/b.py"] (some "/repo") fsAB false).index).toFinset =
      (["/repo/b.py"] : List String).toFinset :=
  c2_second_sync_sets_ids_to_f2 ["/repo/a.py"] ["/repo/b.py"] (some "/repo")
    fsAB false (by decide) (by decide) (by decide) (by decide)

/-- C3, amended: calling sync twice in succession with the same non-empty
file set and unchanged filesystem is idempotent provided every listed file
passes the insertability checks (regular, readable, non-empty, no null
byte) and every document already in the index is among the listed files
(which also rules out the deletions-only fallback walk): the second call
performs zero deletions and zero insertions, leaves the index untouched,
does not persist, and (when verbose) reports that the index is up to
date. -/
theorem c3_second_sync_up_to_date (index : Index) (fnames : List String)
    (gitRoot : Option String) (fs : Fs) (verbose : Bool)
    (hne : fnames ≠ [])
    (hins : ∀ f ∈ fnames, insertableB fs f = true)
    (hsub : ∀ x ∈ indexIds index, x ∈ fnames) :
    refresh_index (refresh_index index fnames gitRoot fs verbose).index fnames
        gitRoot fs verbose =
      { index := (refresh_index index fnames gitRoot fs verbose).index
        deletes := [], inserts := [], persisted := false
        messages := if verbose then ["Context index is up to date."] else [] } := by
  have hdel1 : (computePlan index fnames fs).deletedFiles = [] := by
    rw [List.eq_nil_iff_forall_not_mem]
    intro x hx
    rcases (mem_deletedFiles index fnames fs x).mp hx with ⟨hid, hnf⟩
    exact hnf (hsub x hid)
  by_cases hplan : ((computePlan index fnames fs).newFiles = [] ∧
      (computePlan index fnames fs).deletedFiles = [] ∧
      (computePlan index fnames fs).modifiedFiles = [])
  · rw [refresh_index_upToDate index fnames gitRoot fs verbose hne hplan.1
      hplan.2.1 hplan.2.2]
    dsimp only
    exact refresh_index_upToDate index fnames gitRoot fs verbose hne hplan.1
      hplan.2.1 hplan.2.2
  · have hbase : (computePlan index fnames fs).newFiles ++
        (computePlan index fnames fs).modifiedFiles ≠ [] := by
      intro hnil
      rcases List.append_eq_nil.mp hnil with ⟨hn, hm⟩
      exact hplan ⟨hn, hdel1, hm⟩
    have hfti := filesToIndexOf_of_ne (computePlan index fnames fs) gitRoot fs hbase
    have hplanned : plannedInserts (computePlan index fnames fs) gitRoot fs =
        (computePlan index fnames fs).newFiles ++
          (computePlan index fnames fs).modifiedFiles := by
      unfold plannedInserts
      rw [hfti, List.filter_eq_self]
      intro a ha
      rcases List.mem_append.mp ha with h | h
      · exact hins a ((mem_newFiles index fnames fs a).mp h).1
      · exact hins a ((mem_modifiedFiles index fnames fs a).mp h).1
    have hids : ∀ x,
        x ∈ indexIds (refresh_index index fnames gitRoot fs verbose).index ↔
          x ∈ fnames := by
      intro x
      rw [mem_ids_update index fnames gitRoot fs verbose x hne hplan, hplanned]
      constructor
      · rintro (h | ⟨hid, _, _⟩)
        · rcases List.mem_append.mp h with h | h
          · exact ((mem_newFiles index fnames fs x).mp h).1
          · exact ((mem_modifiedFiles index fnames fs x).mp h).1
        · exact hsub x hid
      · intro hx
        by_cases hmodx : x ∈ (computePlan index fnames fs).modifiedFiles
        · exact Or.inl (List.mem_append.mpr (Or.inr hmodx))
        · by_cases hidx : x ∈ indexIds index
          · refine Or.inr ⟨hidx, ?_, hmodx⟩
            rw [hdel1]
            exact List.not_mem_nil x
          · exact Or.inl (List.mem_append.mpr
              (Or.inl ((mem_newFiles index fnames fs x).mpr ⟨hx, hidx⟩)))
    have hstored : ∀ x ∈ fnames,
        ¬(storedMtime (refresh_index index fnames gitRoot fs verbose).index x <
          (fs.stat x).mtime) := by
      intro x hx
      rw [refresh_index_update index fnames gitRoot fs verbose hne hplan]
      dsimp only
      by_cases hxp : x ∈ plannedInserts (computePlan index fnames fs) gitRoot fs
      · rw [storedMtime_append_found _ _ x (mkDoc gitRoot fs x)
          (find?_map_key (mkDoc gitRoot fs) x _ (List.mem_reverse.mpr hxp))]
        simp [mkDoc]
      · rw [storedMtime_append_miss _ _ x
          (find?_map_key_none (mkDoc gitRoot fs) x _
            (fun hc => hxp (List.mem_reverse.mp hc)))]
        have hxmod : x ∉ (computePlan index fnames fs).modifiedFiles := by
          intro hc
          exact hxp (by rw [hplanned]; exact List.mem_append.mpr (Or.inr hc))
        rw [storedMtime_kept index _ x (by rw [hdel1]; exact List.not_mem_nil x)
          hxmod]
        by_cases hidx : x ∈ indexIds index
        · intro hlt
          exact hxmod ((mem_modifiedFiles index fnames fs x).mpr
            ⟨hx, hidx, insertableB_isFile fs x (hins x hx), hlt⟩)
        · exact absurd
            (by rw [hplanned]
                exact List.mem_append.mpr
                  (Or.inl ((mem_newFiles index fnames fs x).mpr ⟨hx, hidx⟩)))
            hxp
    have hnew2 : (computePlan (refresh_index index fnames gitRoot fs verbose).index
        fnames fs).newFiles = [] := by
      rw [List.eq_nil_iff_forall_not_mem]
      intro x hx
      rcases (mem_newFiles _ fnames fs x).mp hx with ⟨hxf, hnid⟩
      exact hnid ((hids x).mpr hxf)
    have hdel2 : (computePlan (refresh_index index fnames gitRoot fs verbose).index
        fnames fs).deletedFiles = [] := by
      rw [List.eq_nil_iff_forall_not_mem]
      intro x hx
      rcases (mem_deletedFiles _ fnames fs x).mp hx with ⟨hid, hnf⟩
      exact hnf ((hids x).mp hid)
    have hmod2 : (computePlan (refresh_index index fnames gitRoot fs verbose).index
        fnames fs).modifiedFiles = [] := by
      rw [List.eq_nil_iff_forall_not_mem]
      intro x hx
      rcases (mem_modifiedFiles _ fnames fs x).mp hx with ⟨hxf, _, _, hlt⟩
      exact hstored x hxf hlt
    exact refresh_index_upToDate _ fnames gitRoot fs verbose hne hnew2 hdel2 hmod2

/-- C3, witness: two syncs of the indexable `a.py` from an empty index; the
second is a no-op reporting up to date. -/
theorem c3_witness :
    refresh_index (refresh_index [] ["/repo/a.py"] (some "/repo") fsA true).index
        ["/repo/a.py"] (some "/repo") fsA true =
      { index := (refresh_index [] ["/repo/a.py"] (some "/repo") fsA true).index
        deletes := [], inserts := [], persisted := false
        messages := ["Context index is up to date."] } :=
  c3_second_sync_up_to_date [] ["/repo/a.py"] (some "/repo") fsA true
    (by decide) (by decide) (by decide)

/-- C6: a file whose repository-relative path matches a `.aiderignore`
pattern is excluded from the full-walk discovery (it never appears among
the files the walk contributes), but it is NOT excluded when its absolute
path is explicitly passed in the file list: a listed, not-yet-indexed,
insertable file is inserted regardless of the ignore patterns. -/
theorem c6_ignore_pattern_only_affects_walk (index : Index)
    (fnames : List String) (gitRoot : Option String) (fs : Fs) (verbose : Bool)
    (root rel pat f : String)
    (hroot : gitRoot = some root)
    (hpat : pat ∈ activePatterns fs)
    (hmatch : fnmatch rel pat = true)
    (hf1 : f ∈ fnames)
    (hf2 : f ∉ indexIds index)
    (hf3 : insertableB fs f = true) :
    joinPath root rel ∉ walkFiles root fs ∧
      f ∈ (refresh_index index fnames gitRoot fs verbose).inserts := by
  constructor
  · intro hmem
    unfold walkFiles at hmem
    rcases List.mem_filterMap.mp hmem with ⟨rb, hrb, heq⟩
    have hval : joinPath root rb.1 = joinPath root rel := by
      rcases hsz : (fs.stat (joinPath root rb.1)).size with _ | sz
      · rw [hsz] at heq
        cases heq
      · rw [hsz] at heq
        dsimp only at heq
        by_cases hgt : sz > 1024 * 1024
        · rw [if_pos hgt] at heq
          cases heq
        · rw [if_neg hgt] at heq
          exact Option.some.inj heq
    have hrel : rb.1 = rel := joinPath_right_inj root rb.1 rel hval
    have hflt := (List.mem_filter.mp hrb).2
    rw [hrel] at hflt
    simp only [Bool.and_eq_true, Bool.not_eq_true'] at hflt
    have hany := hflt.1
    rw [List.any_eq_false] at hany
    exact hany pat hpat hmatch
  · subst hroot
    have h0 : fnames ≠ [] := List.ne_nil_of_mem hf1
    have hnew : f ∈ (computePlan index fnames fs).newFiles :=
      (mem_newFiles index fnames fs f).mpr ⟨hf1, hf2⟩
    have hplan : ¬((computePlan index fnames fs).newFiles = [] ∧
        (computePlan index fnames fs).deletedFiles = [] ∧
        (computePlan index fnames fs).modifiedFiles = []) := by
      intro hall
      rw [hall.1] at hnew
      cases hnew
    have hftib : (computePlan index fnames fs).newFiles ++
        (computePlan index fnames fs).modifiedFiles ≠ [] := by
      intro hnil
      rw [(List.append_eq_nil.mp hnil).1] at hnew
      cases hnew
    rw [refresh_index_update index fnames (some root) fs verbose h0 hplan]
    dsimp only
    unfold plannedInserts
    rw [filesToIndexOf_of_ne _ _ _ hftib]
    exact List.mem_filter.mpr ⟨List.mem_append_left _ hnew, hf3⟩

/-- C6, witness: `sub/x.log` matches the `.aiderignore` pattern `*.log`;
the walk therefore never yields it, yet passing `/repo/sub/x.log` in the
file list does insert it. -/
theorem c6_witness :
    "*.log" ∈ activePatterns fsIgnore ∧
      fnmatch "sub/x.log" "*.log" = true ∧
      joinPath "/repo" "sub/x.log" ∉ walkFiles "/repo" fsIgnore ∧
      "/repo/sub/x.log" ∈
        (refresh_index [] ["/repo/sub/x.log"] (some "/repo") fsIgnore
          false).inserts := by
  have h := c6_ignore_pattern_only_affects_walk [] ["/repo/sub/x.log"]
    (some "/repo") fsIgnore false "/repo" "sub/x.log" "*.log" "/repo/sub/x.log"
    rfl (by decide) (by decide) (by decide) (by decide) (by decide)
  exact ⟨by decide, by decide, h.1, h.2⟩

/-- C2, counterexample: with F1 = `["/repo/a.py"]` (indexable) and F2 = `[]`,
the second sync returns immediately, so the index still holds `a.py`
although the claim demands that the indexed set equal F2 = the empty set. -/
theorem c2_counterexample :
    indexIds
        (refresh_index
          (refresh_index [] ["/repo/a.py"] (some "/repo") fsA false).index
          [] (some "/repo") fsA false).index = ["/repo/a.py"] := by
  decide

end Aider
